import Mathlib

/-!
Verification of the qftool flash programming engine (`qftool.go`) against its
natural-language specification.  The Go source is shallowly embedded below:
pure computations become Lean functions, the device-command side effects of
the reader/writer loops become explicit event/request traces, and machine
integers become `Nat`/`Int` with explicit reductions where overflow matters.
-/

namespace QFTool

/-- Constant `romSize` in qftool.go: the 2 MiB size of the SPI flash device. -/
def romSize : Nat := 2 * 1024 * 1024

/-! ## Flash Writer (qftool.go, `func (a *QF) Write`)

The writer's device interaction is modelled as a trace of events: write-enable
commands (opcode 0x06), sector-erase commands (opcode 0x20 at an address),
completion waits (polling opcode 0x05 until the WIP bit clears), and
page-program commands (opcode 0x02 at an address with a byte payload). -/

/-- One device interaction performed by the flash writer. -/
inductive Event where
  | writeEnable : Event
  | sectorErase : Nat → Event
  | awaitWIP : Event
  | pageProgram : Nat → List Nat → Event
deriving DecidableEq

/-- The `for n > 0` loop of `Write` (qftool.go lines 347-395): whenever the
current address is sector-aligned it write-enables, erases the sector and
waits; then it write-enables, programs `delta = min(n, 8)` bytes at the
current address, waits, and advances by `delta`. -/
def writeLoop (a : Nat) (d : List Nat) : List Event :=
  if h : d = [] then []
  else
    (if a % 4096 = 0 then
      [Event.writeEnable, Event.sectorErase a, Event.awaitWIP]
     else []) ++
    Event.writeEnable ::
      Event.pageProgram a (d.take (min d.length 8)) ::
        Event.awaitWIP ::
          writeLoop (a + min d.length 8) (d.drop (min d.length 8))
termination_by d.length
decreasing_by
  simp only [List.length_drop]
  have hd : 0 < d.length := List.length_pos.mpr h
  omega

/-- The padding step of `Write` (qftool.go lines 328-336): when the data
length is not a multiple of 4096 the data is extended with 0xFF bytes up to
the next sector boundary. -/
def padData (d : List Nat) : List Nat :=
  if d.length % 4096 = 0 then d
  else d ++ List.replicate (4096 - d.length % 4096) 0xff

/-- The two failure modes of `Write` that occur before any device command. -/
inductive WriteErr where
  | unaligned : WriteErr
  | outOfRange : WriteErr
deriving DecidableEq

/-- Function `Write` (qftool.go lines 324-399): rejects addresses that are not
sector-aligned, pads the data, rejects ranges that leave the device, and
otherwise runs the program loop, returning the trace of device commands. -/
def Write (address : Int) (d : List Nat) : Except WriteErr (List Event) :=
  if address % 4096 ≠ 0 then .error .unaligned
  else
    let d' := padData d
    if address < 0 ∨ address + d'.length > (romSize : Int) then .error .outOfRange
    else .ok (writeLoop address.toNat d')

/-- The `(address, byte)` pairs programmed by a trace, in order. -/
def progBytes : List Event → List (Nat × Nat)
  | [] => []
  | Event.pageProgram a p :: rest => List.zip (List.range' a p.length) p ++ progBytes rest
  | _ :: rest => progBytes rest

/-- Grammar of writer traces: a sequence of write-enable/sector-erase/wait
triples (at sector-aligned addresses) and write-enable/program/wait triples
(with at most 8 payload bytes). -/
inductive WellFormed : List Event → Prop
  | nil : WellFormed []
  | erase (a : Nat) (rest : List Event) : a % 4096 = 0 → WellFormed rest →
      WellFormed (Event.writeEnable :: Event.sectorErase a :: Event.awaitWIP :: rest)
  | prog (a : Nat) (p : List Nat) (rest : List Event) : p.length ≤ 8 → WellFormed rest →
      WellFormed (Event.writeEnable :: Event.pageProgram a p :: Event.awaitWIP :: rest)

/-! ## Flash Reader (qftool.go, `func (a *QF) Read`) -/

/-- The per-call `(address, delta)` requests of the `for n > 0` loop of
`Read` (qftool.go lines 291-316): `delta = min(16 - address mod 16, n)`. -/
def readSteps (a n : Nat) : List (Nat × Nat) :=
  if n = 0 then []
  else (a, min (16 - a % 16) n) ::
    readSteps (a + min (16 - a % 16) n) (n - min (16 - a % 16) n)
termination_by n
decreasing_by omega

/-- The command bytes built for one read request (qftool.go lines 298-302):
a 5-byte buffer holding opcode 0x0B, the three address bytes high to low, and
a final byte that is never assigned and so keeps its zero initialisation. -/
def readCmd (x : Nat) : List Nat :=
  [0x0B, x / 65536 % 256, x / 256 % 256, x % 256, 0]

/-- The `(command bytes, expected reply length)` pairs handed to `spi` by the
read loop. -/
def readTrace (a n : Nat) : List (List Nat × Nat) :=
  (readSteps a n).map (fun s => (readCmd s.1, s.2))

/-- The bytes accumulated by the read loop against a device with contents
`mem`: each `spi` call replies with the `delta` bytes at the requested
address, and the replies are appended in order (qftool.go line 315). -/
def readLoop (mem : Nat → Nat) (a n : Nat) : List Nat :=
  if n = 0 then []
  else ((List.range' a (min (16 - a % 16) n)).map mem) ++
    readLoop mem (a + min (16 - a % 16) n) (n - min (16 - a % 16) n)
termination_by n
decreasing_by omega

/-- Function `Read` (qftool.go lines 281-321): rejects ranges outside the device and
otherwise runs the chunked read loop. -/
def Read (mem : Nat → Nat) (address n : Int) : Except String (List Nat) :=
  if address < 0 ∨ address + n > (romSize : Int) then .error "data read request outside rom"
  else .ok (readLoop mem address.toNat n.toNat)

/-! ## Metadata Codec (qftool.go, `MetaData`, `readMeta`, `writeMeta`)

`binary.Write`/`binary.Read` with `binary.LittleEndian` over the `MetaData`
struct serialise it as 12 packed bytes: u32 CRC, u32 Size, then one byte
each for Written, Image, Purpose and Reserved. -/

/-- The `MetaData` struct of qftool.go.  Fields hold machine integers
(uint32 for `CRC` and `Size`, uint8 for the rest), represented as `Nat`. -/
structure MetaData where
  CRC : Nat
  Size : Nat
  Written : Nat
  Image : Nat
  Purpose : Nat
  Reserved : Nat
deriving DecidableEq

/-- Little-endian serialisation of a 32-bit value into four bytes. -/
def le32 (x : Nat) : List Nat :=
  [x % 256, x / 256 % 256, x / 65536 % 256, x / 16777216 % 256]

/-- Encoding via `binary.Write(buf, binary.LittleEndian, m)` in `writeMeta`
(qftool.go lines 488-499): the 12-byte little-endian encoding. -/
def encodeMeta (m : MetaData) : List Nat :=
  le32 m.CRC ++ le32 m.Size ++
    [m.Written % 256, m.Image % 256, m.Purpose % 256, m.Reserved % 256]

/-- Decoding via `binary.Read(bytes.NewReader(b), binary.LittleEndian, &decoded)` in
`readMeta` (qftool.go lines 463-472): consumes the first 12 bytes, fails
when fewer are available.  Tag bytes are preserved as they are, whether or
not they match a known enum value. -/
def decodeMeta : List Nat → Option MetaData
  | c0 :: c1 :: c2 :: c3 :: s0 :: s1 :: s2 :: s3 :: w :: i :: p :: r :: _ =>
    some ⟨c0 + 256 * c1 + 65536 * c2 + 16777216 * c3,
          s0 + 256 * s1 + 65536 * s2 + 16777216 * s3, w, i, p, r⟩
  | _ => none

/-! ## Region Catalog (qftool.go, `Section`, `sections`, `secByName`)

The Go `Type` and `SubType` enums are represented by their byte values:
TypeM4 = 1, TypeFFE = 2, TypeFPGA = 3; SubTypeBoot = 1, SubTypeApp = 2. -/

/-- The `Section` struct of qftool.go (the unused `written` field aside). -/
structure Section where
  name : String
  base : Nat
  limit : Nat
  meta : Nat
  image : Nat
  purpose : Nat
deriving DecidableEq

/-- The `sections` layout table of qftool.go (lines 147-188). -/
def sections : List Section :=
  [⟨"bootloader", 0x00000, 0x10000, 0x1f000, 1, 1⟩,
   ⟨"bootfpga", 0x20000, 0x40000, 0x10000, 3, 1⟩,
   ⟨"appfpga", 0x40000, 0x60000, 0x11000, 3, 2⟩,
   ⟨"appffe", 0x60000, 0x80000, 0x12000, 2, 2⟩,
   ⟨"app", 0x80000, 0xee000, 0x13000, 1, 2⟩]

/-- Function `secByName` (qftool.go lines 502-511): first section with the given
name; the Go version aborts on an unknown name, modelled as `none`. -/
def secByName (name : String) : Option Section :=
  sections.find? (fun s => s.name = name)

/-! ## Session open (qftool.go, `reset` and `NewQF`) -/

/-- A device on the other side of the serial channel: the JEDEC identity it
reports to opcode 0x9F, and its flash contents. -/
structure Device where
  mid : Nat
  did1 : Nat
  did2 : Nat
  mem : Nat → Nat

/-- The identity validation of `reset` (qftool.go lines 419-429): after the
wake command, the three JEDEC ID bytes must be 0xC8 then 0x40, 0x15; the
subsequent status wait uses mask 0 and so always succeeds, and a failure of
the initial 16-byte read is only logged. -/
def QFreset (dev : Device) : Except String Unit :=
  if dev.mid ≠ 0xC8 then .error "got unexpected MID"
  else if dev.did1 ≠ 0x40 ∨ dev.did2 ≠ 0x15 then .error "got unexpected DID"
  else .ok ()

/-- Function `NewQF` (qftool.go lines 446-460): opens the port and runs `reset`; on
any reset failure the connection is closed and no session is returned. -/
def NewQF (dev : Device) : Except String Unit :=
  match QFreset dev with
  | .error e => .error e
  | .ok _ => .ok ()

/-! ## Integrity Validator (qftool.go, `readMeta` and `validate`) -/

/-- The failure modes of `validate`, carrying the values the Go error
strings interpolate. -/
inductive VError where
  | unknownSection : VError
  | metaReadFail : VError
  | dataReadFail : VError
  | invalidSize : Nat → Nat → VError
  | crcMismatch : Nat → Nat → VError
deriving DecidableEq

/-- Function `validate` (qftool.go lines 514-529), against a device with contents
`mem` and with the external `xcrc32.NewCRC32` checksum abstracted as `crc`.
Returns the result together with the `(address, length)` ranges passed to
the Flash Reader, in order. -/
def validate (crc : List Nat → Nat) (mem : Nat → Nat) (name : String) :
    Except VError Unit × List (Nat × Nat) :=
  match secByName name with
  | none => (.error .unknownSection, [])
  | some sec =>
    match Read mem (sec.meta : Int) 12 with
    | .error _ => (.error .metaReadFail, [(sec.meta, 12)])
    | .ok mbytes =>
      match decodeMeta mbytes with
      | none => (.error .metaReadFail, [(sec.meta, 12)])
      | some meta =>
        if meta.Size > sec.limit - sec.base then
          (.error (.invalidSize meta.Size (sec.limit - sec.base)), [(sec.meta, 12)])
        else
          match Read mem (sec.base : Int) (meta.Size : Int) with
          | .error _ => (.error .dataReadFail, [(sec.meta, 12), (sec.base, meta.Size)])
          | .ok d =>
            if crc d = meta.CRC then (.ok (), [(sec.meta, 12), (sec.base, meta.Size)])
            else (.error (.crcMismatch (crc d) meta.CRC),
                  [(sec.meta, 12), (sec.base, meta.Size)])

/-! ## The write and disable paths of `main` (qftool.go lines 556-646)

Both are modelled as the ordered list of `(address, data)` invocations of
the Flash Writer they perform (`writeMeta` calls `Write` on the 12-byte
encoding of its record), or the error that aborts the run first. -/

/-- The `--write` path of `main`: resolve the section (if any), apply the
address/limit sanity checks, skip, the beyond-limit check and the protection
check, then write the data at `addr` and — when a metadata offset is
configured — write the freshly encoded metadata record at it.  The comment
in the source notes that this final write overrides the `--protect` limit. -/
def mainWritePath (crc : List Nat → Nat) (protect addrArg limitArg : Int)
    (sect : Option String) (skip : Nat) (file : List Nat) :
    Except String (List (Int × List Nat)) :=
  let resolved : Except String (Int × Int × Int × Option Section) :=
    match sect with
    | none => .ok (addrArg, limitArg, 0, none)
    | some name =>
      match secByName name with
      | none => .error "no section named"
      | some sec => .ok ((sec.base : Int), (sec.limit : Int), (sec.meta : Int), some sec)
  match resolved with
  | .error e => .error e
  | .ok (addr, limit, meta, osec) =>
    if addr ≥ limit then .error "require address to be less than limit"
    else if limit > (romSize : Int) then .error "limit must not be above romSize"
    else if skip > file.length then .error "unable to skip bytes from file"
    else
      let d := file.drop skip
      if (d.length : Int) + addr > limit then .error "data would write beyond limit"
      else if addr < protect then .error "write protection"
      else
        match osec with
        | none => .ok [(addr, d)]
        | some sec =>
          if meta = 0 then .ok [(addr, d)]
          else .ok [(addr, d),
                (meta, encodeMeta ⟨crc d, d.length, 0x03, sec.image, sec.purpose, 0xff⟩)]

/-- The `--disable` path of `main` (qftool.go lines 564-578): refuse when
the protect boundary exceeds the section base, otherwise clear the metadata
record (all-ones CRC and size, presence `empty`) at the metadata offset. -/
def mainDisablePath (protect : Int) (name : String) :
    Except String (List (Int × List Nat)) :=
  match secByName name with
  | none => .error "no section named"
  | some sec =>
    if protect > (sec.base : Int) then .error "operation refers to protected section"
    else .ok [((sec.meta : Int),
      encodeMeta ⟨0xffffffff, 0xffffffff, 0xff, sec.image, sec.purpose, 0xff⟩)]

/-! ## Lemmas about the writer loop -/

lemma writeLoop_nil (a : Nat) : writeLoop a [] = [] := by
  simp [writeLoop]

lemma writeLoop_ne_nil (a : Nat) (d : List Nat) (h : d ≠ []) :
    writeLoop a d =
      (if a % 4096 = 0 then
        [Event.writeEnable, Event.sectorErase a, Event.awaitWIP]
       else []) ++
      Event.writeEnable ::
        Event.pageProgram a (d.take (min d.length 8)) ::
          Event.awaitWIP ::
            writeLoop (a + min d.length 8) (d.drop (min d.length 8)) := by
  rw [writeLoop]
  simp [h]

lemma progBytes_append (l1 l2 : List Event) :
    progBytes (l1 ++ l2) = progBytes l1 ++ progBytes l2 := by
  induction l1 with
  | nil => simp [progBytes]
  | cons e rest ih =>
    cases e <;> simp [progBytes, ih]

/-- The byte/address pairs programmed by the loop: exactly the data bytes,
at consecutive addresses starting from the start address. -/
lemma progBytes_writeLoop :
    ∀ (n : Nat) (d : List Nat) (a : Nat), d.length = n →
      progBytes (writeLoop a d) = List.zip (List.range' a d.length) d := by
  intro n
  induction n using Nat.strong_induction_on with
  | _ n ih =>
    intro d a hlen
    rcases eq_or_ne d [] with rfl | hne
    · simp [writeLoop_nil, progBytes]
    · have hpos : 0 < d.length := List.length_pos.mpr hne
      set δ := min d.length 8 with hδ
      have hδpos : 0 < δ := by omega
      have hδle : δ ≤ d.length := by omega
      have htriple : progBytes (Event.writeEnable ::
          Event.pageProgram a (d.take δ) :: Event.awaitWIP ::
            writeLoop (a + δ) (d.drop δ)) =
          List.zip (List.range' a (d.take δ).length) (d.take δ) ++
            progBytes (writeLoop (a + δ) (d.drop δ)) := by
        simp [progBytes]
      have hdroplen : (d.drop δ).length = d.length - δ := by
        simp
      have hrec : progBytes (writeLoop (a + δ) (d.drop δ)) =
          List.zip (List.range' (a + δ) (d.drop δ).length) (d.drop δ) := by
        refine ih (d.drop δ).length ?_ (d.drop δ) (a + δ) rfl
        omega
      have htakelen : (d.take δ).length = δ := by
        simp [hδle]
      have hcover : List.range' a δ ++ List.range' (a + δ) (d.length - δ) =
          List.range' a d.length := by
        have := List.range'_append a δ (d.length - δ) 1
        simp only [one_mul, Nat.mul_one] at this
        rw [Nat.add_comm (d.length - δ) δ] at this
        have hsum : δ + (d.length - δ) = d.length := by omega
        rw [hsum] at this
        simpa using this
      have hzip : List.zip (List.range' a δ ++ List.range' (a + δ) (d.length - δ))
          (d.take δ ++ d.drop δ) =
          List.zip (List.range' a δ) (d.take δ) ++
            List.zip (List.range' (a + δ) (d.length - δ)) (d.drop δ) := by
        refine List.zip_append ?_
        simp [htakelen]
      have hsplit : d.take δ ++ d.drop δ = d := List.take_append_drop δ d
      have hpref : progBytes (if a % 4096 = 0 then
          [Event.writeEnable, Event.sectorErase a, Event.awaitWIP]
        else []) = [] := by
        split <;> simp [progBytes]
      have key := hzip.symm
      rw [hcover, hsplit] at key
      rw [writeLoop_ne_nil a d hne, progBytes_append, hpref, List.nil_append,
        htriple, hrec, hdroplen, htakelen]
      exact key

/-- Every trace the writer loop produces fits the triple grammar. -/
lemma wf_writeLoop :
    ∀ (n : Nat) (d : List Nat) (a : Nat), d.length = n → WellFormed (writeLoop a d) := by
  intro n
  induction n using Nat.strong_induction_on with
  | _ n ih =>
    intro d a hlen
    rcases eq_or_ne d [] with rfl | hne
    · simpa [writeLoop_nil] using WellFormed.nil
    · have hpos : 0 < d.length := List.length_pos.mpr hne
      set δ := min d.length 8 with hδ
      have hδpos : 0 < δ := by omega
      have hδle : δ ≤ d.length := by omega
      have hrest : WellFormed (writeLoop (a + δ) (d.drop δ)) := by
        refine ih (d.drop δ).length ?_ (d.drop δ) (a + δ) rfl
        simp
        omega
      have hprg : WellFormed (Event.writeEnable ::
          Event.pageProgram a (d.take δ) :: Event.awaitWIP ::
            writeLoop (a + δ) (d.drop δ)) := by
        refine WellFormed.prog a (d.take δ) _ ?_ hrest
        simp [hδle]
        omega
      rw [writeLoop_ne_nil a d hne]
      split
      · exact WellFormed.erase a _ (by assumption) hprg
      · simpa using hprg

/-- In a well-formed trace, every page-program carries at most 8 bytes, is
immediately preceded by a write-enable and immediately followed by a
completion wait. -/
lemma wf_prog_bracket {tr : List Event} (h : WellFormed tr) :
    ∀ l1 x p l2, tr = l1 ++ Event.pageProgram x p :: l2 →
      p.length ≤ 8 ∧ (∃ l0, l1 = l0 ++ [Event.writeEnable]) ∧
        (∃ l3, l2 = Event.awaitWIP :: l3) := by
  induction h with
  | nil =>
    intro l1 x p l2 heq
    rcases l1 with _ | ⟨e1, l1⟩ <;> simp at heq
  | erase a rest ha hrest ih =>
    intro l1 x p l2 heq
    rcases l1 with _ | ⟨e1, l1⟩
    · simp at heq
    rcases l1 with _ | ⟨e2, l1⟩
    · simp at heq
    rcases l1 with _ | ⟨e3, l1⟩
    · simp at heq
    simp only [List.cons_append, List.cons.injEq] at heq
    obtain ⟨he1, he2, he3, hrest'⟩ := heq
    obtain ⟨h8, ⟨l0, hl0⟩, hl3⟩ := ih l1 x p l2 hrest'
    subst he1 he2 he3 hl0
    exact ⟨h8, ⟨Event.writeEnable :: Event.sectorErase a :: Event.awaitWIP :: l0,
      by simp⟩, hl3⟩
  | prog a q rest h8 hrest ih =>
    intro l1 x p l2 heq
    rcases l1 with _ | ⟨e1, l1⟩
    · simp at heq
    rcases l1 with _ | ⟨e2, l1⟩
    · simp only [List.cons_append, List.nil_append, List.cons.injEq] at heq
      obtain ⟨he1, hpp, hl2⟩ := heq
      obtain ⟨hx, hp⟩ := Event.pageProgram.inj hpp.symm
      subst he1 hx hp hl2
      exact ⟨h8, ⟨[], by simp⟩, ⟨rest, rfl⟩⟩
    rcases l1 with _ | ⟨e3, l1⟩
    · simp at heq
    simp only [List.cons_append, List.cons.injEq] at heq
    obtain ⟨he1, he2, he3, hrest'⟩ := heq
    obtain ⟨h8', ⟨l0, hl0⟩, hl3⟩ := ih l1 x p l2 hrest'
    subst he1 he2 he3 hl0
    exact ⟨h8', ⟨Event.writeEnable :: Event.pageProgram a q :: Event.awaitWIP :: l0,
      by simp⟩, hl3⟩

/-- In a well-formed trace, every sector erase is at a sector-aligned
address, is immediately preceded by a write-enable and immediately followed
by a completion wait. -/
lemma wf_erase_bracket {tr : List Event} (h : WellFormed tr) :
    ∀ l1 x l2, tr = l1 ++ Event.sectorErase x :: l2 →
      x % 4096 = 0 ∧ (∃ l0, l1 = l0 ++ [Event.writeEnable]) ∧
        (∃ l3, l2 = Event.awaitWIP :: l3) := by
  induction h with
  | nil =>
    intro l1 x l2 heq
    rcases l1 with _ | ⟨e1, l1⟩ <;> simp at heq
  | erase a rest ha hrest ih =>
    intro l1 x l2 heq
    rcases l1 with _ | ⟨e1, l1⟩
    · simp at heq
    rcases l1 with _ | ⟨e2, l1⟩
    · simp only [List.cons_append, List.nil_append, List.cons.injEq] at heq
      obtain ⟨he1, hse, hl2⟩ := heq
      have hx : a = x := Event.sectorErase.inj hse
      subst he1 hx hl2
      exact ⟨ha, ⟨[], by simp⟩, ⟨rest, rfl⟩⟩
    rcases l1 with _ | ⟨e3, l1⟩
    · simp at heq
    simp only [List.cons_append, List.cons.injEq] at heq
    obtain ⟨he1, he2, he3, hrest'⟩ := heq
    obtain ⟨hax, ⟨l0, hl0⟩, hl3⟩ := ih l1 x l2 hrest'
    subst he1 he2 he3 hl0
    exact ⟨hax, ⟨Event.writeEnable :: Event.sectorErase a :: Event.awaitWIP :: l0,
      by simp⟩, hl3⟩
  | prog a q rest h8 hrest ih =>
    intro l1 x l2 heq
    rcases l1 with _ | ⟨e1, l1⟩
    · simp at heq
    rcases l1 with _ | ⟨e2, l1⟩
    · simp at heq
    rcases l1 with _ | ⟨e3, l1⟩
    · simp at heq
    simp only [List.cons_append, List.cons.injEq] at heq
    obtain ⟨he1, he2, he3, hrest'⟩ := heq
    obtain ⟨hax, ⟨l0, hl0⟩, hl3⟩ := ih l1 x l2 hrest'
    subst he1 he2 he3 hl0
    exact ⟨hax, ⟨Event.writeEnable :: Event.pageProgram a q :: Event.awaitWIP :: l0,
      by simp⟩, hl3⟩

/-- In any run of the program loop that starts at an 8-aligned address with
an 8-divisible byte count, every page-program at an address `x` either stays
inside the sector the loop started in mid-sector (no erase emitted locally),
or is preceded in the trace by the erase of the sector containing `x`. -/
lemma writeLoop_erase_before :
    ∀ (n : Nat) (d : List Nat) (a : Nat), d.length = n → a % 8 = 0 →
      d.length % 8 = 0 →
      ∀ l1 x p l2, writeLoop a d = l1 ++ Event.pageProgram x p :: l2 →
        (a % 4096 ≠ 0 ∧ x / 4096 = a / 4096) ∨
          Event.sectorErase (4096 * (x / 4096)) ∈ l1 := by
  intro n
  induction n using Nat.strong_induction_on with
  | _ n ih =>
    intro d a hlen ha8 hd8 l1 x p l2 heq
    rcases eq_or_ne d [] with rfl | hne
    · rw [writeLoop_nil] at heq
      rcases l1 with _ | ⟨e1, l1⟩ <;> simp at heq
    · have hpos : 0 < d.length := List.length_pos.mpr hne
      have hδ : min d.length 8 = 8 := by omega
      rw [writeLoop_ne_nil a d hne, hδ] at heq
      have hlen' : (d.drop 8).length = d.length - 8 := by simp
      have harg : (d.drop 8).length < n := by omega
      have ha8' : (a + 8) % 8 = 0 := by omega
      have hd8' : (d.drop 8).length % 8 = 0 := by omega
      by_cases ha4 : a % 4096 = 0
      · rw [if_pos ha4] at heq
        simp only [List.cons_append, List.nil_append] at heq
        rcases l1 with _ | ⟨e1, l1⟩
        · simp at heq
        rcases l1 with _ | ⟨e2, l1⟩
        · simp at heq
        rcases l1 with _ | ⟨e3, l1⟩
        · simp at heq
        rcases l1 with _ | ⟨e4, l1⟩
        · simp at heq
        rcases l1 with _ | ⟨e5, l1⟩
        · simp only [List.cons_append, List.nil_append, List.cons.injEq] at heq
          obtain ⟨he1, he2, he3, he4, hpp, hl2⟩ := heq
          obtain ⟨hx, hp⟩ := Event.pageProgram.inj hpp.symm
          subst he1 he2 he3 he4 hx
          right
          have h4 : 4096 * (x / 4096) = x := by omega
          simp [h4]
        rcases l1 with _ | ⟨e6, l1⟩
        · simp at heq
        simp only [List.cons_append, List.cons.injEq] at heq
        obtain ⟨he1, he2, he3, he4, he5, he6, hrest⟩ := heq
        subst he1 he2 he3 he4 he5 he6
        rcases ih (d.drop 8).length harg (d.drop 8) (a + 8) rfl ha8' hd8'
            l1 x p l2 hrest with hleft | hright
        · obtain ⟨hne', hdiv⟩ := hleft
          right
          have hdiv' : (a + 8) / 4096 = a / 4096 := by omega
          have : 4096 * (x / 4096) = a := by omega
          simp [this]
        · right
          simp [hright]
      · rw [if_neg ha4] at heq
        simp only [List.nil_append] at heq
        rcases l1 with _ | ⟨e1, l1⟩
        · simp at heq
        rcases l1 with _ | ⟨e2, l1⟩
        · simp only [List.cons_append, List.nil_append, List.cons.injEq] at heq
          obtain ⟨he1, hpp, hl2⟩ := heq
          obtain ⟨hx, hp⟩ := Event.pageProgram.inj hpp.symm
          subst hx
          exact Or.inl ⟨ha4, rfl⟩
        rcases l1 with _ | ⟨e3, l1⟩
        · simp at heq
        simp only [List.cons_append, List.cons.injEq] at heq
        obtain ⟨he1, he2, he3, hrest⟩ := heq
        subst he1 he2 he3
        rcases ih (d.drop 8).length harg (d.drop 8) (a + 8) rfl ha8' hd8'
            l1 x p l2 hrest with hleft | hright
        · obtain ⟨hne', hdiv⟩ := hleft
          left
          refine ⟨ha4, ?_⟩
          omega
        · right
          simp [hright]

/-! ## Lemmas about padding and the writer entry checks -/

lemma padData_length (d : List Nat) :
    (padData d).length = d.length + (4096 - d.length % 4096) % 4096 := by
  unfold padData
  split
  · omega
  · simp
    omega

lemma padData_mod (d : List Nat) : (padData d).length % 4096 = 0 := by
  rw [padData_length]
  omega

/-- Under sector alignment, the padded data fits exactly when the unpadded
data fits. -/
lemma pad_fit_iff (A L : Nat) (ha : A % 4096 = 0) :
    A + L ≤ romSize ↔ A + (L + (4096 - L % 4096) % 4096) ≤ romSize := by
  unfold romSize
  omega

/-- On a nonnegative sector-aligned address whose unpadded range fits the
device, `Write` succeeds and produces the program-loop trace. -/
lemma write_ok (address : Int) (d : List Nat) (h0 : 0 ≤ address)
    (ha : address % 4096 = 0) (hr : address + d.length ≤ (romSize : Int)) :
    Write address d = .ok (writeLoop address.toNat (padData d)) := by
  have hfit : address + ((padData d).length : Int) ≤ (romSize : Int) := by
    rw [padData_length]
    have := (pad_fit_iff address.toNat d.length (by omega)).mp (by omega)
    push_cast
    omega
  unfold Write
  rw [if_neg (by omega)]
  simp only
  rw [if_neg (by omega)]

/-! ## Lemmas about the reader loop -/

lemma readSteps_nil (a : Nat) : readSteps a 0 = [] := by
  simp [readSteps]

lemma readSteps_pos (a n : Nat) (h : n ≠ 0) :
    readSteps a n = (a, min (16 - a % 16) n) ::
      readSteps (a + min (16 - a % 16) n) (n - min (16 - a % 16) n) := by
  rw [readSteps]
  simp [h]

lemma readLoop_nil (mem : Nat → Nat) (a : Nat) : readLoop mem a 0 = [] := by
  simp [readLoop]

lemma readLoop_pos (mem : Nat → Nat) (a n : Nat) (h : n ≠ 0) :
    readLoop mem a n = ((List.range' a (min (16 - a % 16) n)).map mem) ++
      readLoop mem (a + min (16 - a % 16) n) (n - min (16 - a % 16) n) := by
  rw [readLoop]
  simp [h]

/-- The read loop returns exactly the `n` device bytes from `a` upward, in
address order. -/
lemma readLoop_eq_map :
    ∀ (n : Nat) (mem : Nat → Nat) (a : Nat),
      readLoop mem a n = (List.range' a n).map mem := by
  intro n
  induction n using Nat.strong_induction_on with
  | _ n ih =>
    intro mem a
    rcases eq_or_ne n 0 with rfl | hn
    · simp [readLoop_nil]
    · set δ := min (16 - a % 16) n with hδ
      have hδpos : 0 < δ := by omega
      have hδle : δ ≤ n := by omega
      rw [readLoop_pos mem a n hn, ih (n - δ) (by omega) mem (a + δ)]
      rw [← List.map_append]
      congr 1
      have := List.range'_append a δ (n - δ) 1
      simp only [one_mul, Nat.mul_one] at this
      rw [Nat.add_comm (n - δ) δ] at this
      have hsum : δ + (n - δ) = n := by omega
      rw [hsum] at this
      simpa using this

/-- The per-call requests tile the requested range exactly: concatenating
the per-call address windows gives the contiguous address list of the whole
read, so the calls are in strictly increasing address order with no gaps and
no overlaps. -/
lemma readSteps_flat :
    ∀ (n a : Nat),
      (readSteps a n).flatMap (fun s => List.range' s.1 s.2) = List.range' a n := by
  intro n
  induction n using Nat.strong_induction_on with
  | _ n ih =>
    intro a
    rcases eq_or_ne n 0 with rfl | hn
    · simp [readSteps_nil]
    · set δ := min (16 - a % 16) n with hδ
      have hδpos : 0 < δ := by omega
      have hδle : δ ≤ n := by omega
      rw [readSteps_pos a n hn]
      simp only [List.flatMap_cons]
      rw [ih (n - δ) (by omega) (a + δ)]
      have := List.range'_append a δ (n - δ) 1
      simp only [one_mul, Nat.mul_one] at this
      rw [Nat.add_comm (n - δ) δ] at this
      have hsum : δ + (n - δ) = n := by omega
      rw [hsum] at this
      simpa using this

/-- Every per-call request asks for at least one byte, at most 16 bytes, and
stays inside the 16-byte-aligned window of its start address. -/
lemma readSteps_bounds :
    ∀ (n a : Nat), ∀ s ∈ readSteps a n,
      1 ≤ s.2 ∧ s.2 ≤ 16 ∧ s.1 % 16 + s.2 ≤ 16 := by
  intro n
  induction n using Nat.strong_induction_on with
  | _ n ih =>
    intro a s hs
    rcases eq_or_ne n 0 with rfl | hn
    · simp [readSteps_nil] at hs
    · rw [readSteps_pos a n hn] at hs
      rcases List.mem_cons.mp hs with rfl | hs'
      · refine ⟨by omega, by omega, by omega⟩
      · exact ih (n - min (16 - a % 16) n) (by omega) _ s hs'

/-- Per-call start addresses never fall below the loop's start address. -/
lemma readSteps_lb :
    ∀ (n a : Nat), ∀ s ∈ readSteps a n, a ≤ s.1 := by
  intro n
  induction n using Nat.strong_induction_on with
  | _ n ih =>
    intro a s hs
    rcases eq_or_ne n 0 with rfl | hn
    · simp [readSteps_nil] at hs
    · rw [readSteps_pos a n hn] at hs
      rcases List.mem_cons.mp hs with rfl | hs'
      · exact Nat.le_refl a
      · have := ih (n - min (16 - a % 16) n) (by omega) _ s hs'
        omega

/-- Per-call start addresses are strictly increasing along the read. -/
lemma readSteps_pairwise :
    ∀ (n a : Nat), (readSteps a n).Pairwise (fun s t => s.1 < t.1) := by
  intro n
  induction n using Nat.strong_induction_on with
  | _ n ih =>
    intro a
    rcases eq_or_ne n 0 with rfl | hn
    · simp [readSteps_nil]
    · rw [readSteps_pos a n hn]
      refine List.Pairwise.cons ?_ (ih (n - min (16 - a % 16) n) (by omega) _)
      intro s hs
      have h1 := readSteps_lb (n - min (16 - a % 16) n) (a + min (16 - a % 16) n) s hs
      have : 0 < min (16 - a % 16) n := by omega
      omega

/-- A read whose range lies inside the device succeeds and returns the
device bytes of that range in order. -/
lemma read_ok (mem : Nat → Nat) (address n : Int) (h0 : 0 ≤ address)
    (hn : 0 ≤ n) (hr : address + n ≤ (romSize : Int)) :
    Read mem address n = .ok ((List.range' address.toNat n.toNat).map mem) := by
  unfold Read
  rw [if_neg (by omega)]
  rw [readLoop_eq_map]

/-! ## Claim theorems -/

/-- C2: for every in-range `(address, length)` request, `Read` returns
exactly `length` bytes — the device bytes of the range concatenated in
request order — and the per-call requests each ask for
`delta = min(16 - address mod 16, remaining)` bytes (so at least 1, at most
16, never crossing a 16-byte window boundary), tile the requested range
contiguously with no gaps or overlaps, and have strictly increasing
addresses. -/
theorem C2_reader_chunking (mem : Nat → Nat) (address n : Int) (h0 : 0 ≤ address)
    (hn : 0 ≤ n) (hr : address + n ≤ (romSize : Int)) :
    Read mem address n = .ok ((List.range' address.toNat n.toNat).map mem) ∧
    ((List.range' address.toNat n.toNat).map mem).length = n.toNat ∧
    (readSteps address.toNat n.toNat).flatMap (fun s => List.range' s.1 s.2) =
      List.range' address.toNat n.toNat ∧
    (∀ s ∈ readSteps address.toNat n.toNat,
      1 ≤ s.2 ∧ s.2 ≤ 16 ∧ s.1 % 16 + s.2 ≤ 16) ∧
    (readSteps address.toNat n.toNat).Pairwise (fun s t => s.1 < t.1) := by
  refine ⟨read_ok mem address n h0 hn hr, by simp, readSteps_flat _ _,
    fun s hs => readSteps_bounds _ _ s hs, readSteps_pairwise _ _⟩

/-- Witness for C2 at `mem = id`, `address = 0`, `n = 5`. -/
theorem C2_reader_chunking_witness :
    Read (fun i => i) 0 5 = .ok ((List.range' (0 : Int).toNat (5 : Int).toNat).map (fun i => i)) ∧
    ((List.range' (0 : Int).toNat (5 : Int).toNat).map (fun i => i)).length = (5 : Int).toNat ∧
    (readSteps (0 : Int).toNat (5 : Int).toNat).flatMap (fun s => List.range' s.1 s.2) =
      List.range' (0 : Int).toNat (5 : Int).toNat ∧
    (∀ s ∈ readSteps (0 : Int).toNat (5 : Int).toNat,
      1 ≤ s.2 ∧ s.2 ≤ 16 ∧ s.1 % 16 + s.2 ≤ 16) ∧
    (readSteps (0 : Int).toNat (5 : Int).toNat).Pairwise (fun s t => s.1 < t.1) :=
  C2_reader_chunking (fun i => i) 0 5 (by decide) (by decide) (by decide)

/-- C4: the metadata codec encodes a record as exactly 12 little-endian
bytes (u32 crc, u32 size, then the four single-byte fields) and decoding an
encoding recovers the record for all in-width field values, including tag
bytes outside the recognised enum values. -/
theorem C4_metadata_roundtrip (m : MetaData)
    (h1 : m.CRC < 4294967296) (h2 : m.Size < 4294967296) (h3 : m.Written < 256)
    (h4 : m.Image < 256) (h5 : m.Purpose < 256) (h6 : m.Reserved < 256) :
    (encodeMeta m).length = 12 ∧ (∀ b ∈ encodeMeta m, b < 256) ∧
      decodeMeta (encodeMeta m) = some m := by
  obtain ⟨crc, sz, w, i, p, r⟩ := m
  simp only [encodeMeta, le32] at *
  refine ⟨by simp, ?_, ?_⟩
  · intro b hb
    simp only [List.cons_append, List.nil_append, List.mem_cons,
      List.not_mem_nil, or_false] at hb
    rcases hb with rfl | rfl | rfl | rfl | rfl | rfl | rfl | rfl | rfl | rfl | rfl | rfl <;>
      omega
  · simp only [List.cons_append, List.nil_append, decodeMeta,
      Option.some.injEq, MetaData.mk.injEq]
    refine ⟨by omega, by omega, by omega, by omega, by omega, by omega⟩

/-- Witness for C4 at a record with boundary tag bytes 0x00, 0xFF and an
arbitrary reserved byte. -/
theorem C4_metadata_roundtrip_witness :
    (encodeMeta ⟨0xFFFFFFFF, 0, 0x00, 0xFF, 0x20, 0xAB⟩).length = 12 ∧
    (∀ b ∈ encodeMeta ⟨0xFFFFFFFF, 0, 0x00, 0xFF, 0x20, 0xAB⟩, b < 256) ∧
    decodeMeta (encodeMeta ⟨0xFFFFFFFF, 0, 0x00, 0xFF, 0x20, 0xAB⟩) =
      some ⟨0xFFFFFFFF, 0, 0x00, 0xFF, 0x20, 0xAB⟩ :=
  C4_metadata_roundtrip ⟨0xFFFFFFFF, 0, 0x00, 0xFF, 0x20, 0xAB⟩
    (by decide) (by decide) (by decide) (by decide) (by decide) (by decide)

/-- C7: under the sector-alignment precondition, the writer reports an
out-of-range error exactly when the unpadded end address exceeds the 2 MiB
device size, and accepts (running the program loop) otherwise, having issued
no device command in the error case. -/
theorem C7_writer_range_check (address : Int) (d : List Nat) (h0 : 0 ≤ address)
    (ha : address % 4096 = 0) :
    (Write address d = .error .outOfRange ↔ (romSize : Int) < address + d.length) ∧
    ((romSize : Int) < address + d.length → ∀ tr, Write address d ≠ .ok tr) ∧
    (address + d.length ≤ (romSize : Int) →
      Write address d = .ok (writeLoop address.toNat (padData d))) := by
  have hlen : (padData d).length = d.length + (4096 - d.length % 4096) % 4096 :=
    padData_length d
  constructor
  · constructor
    · intro herr
      by_contra hcase
      rw [write_ok address d h0 ha (by omega)] at herr
      exact Except.noConfusion herr
    · intro hcase
      unfold Write
      rw [if_neg (by omega)]
      simp only
      rw [if_pos (by omega)]
  · constructor
    · intro hcase tr
      unfold Write
      rw [if_neg (by omega)]
      simp only
      rw [if_pos (by omega)]
      exact fun hcontra => Except.noConfusion hcontra
    · intro hcase
      exact write_ok address d h0 ha (by omega)

/-- Witness for C7 at address 0 with a one-byte payload. -/
theorem C7_writer_range_check_witness :
    (Write 0 [0xAA] = .error .outOfRange ↔ (romSize : Int) < 0 + ([0xAA] : List Nat).length) ∧
    ((romSize : Int) < 0 + ([0xAA] : List Nat).length → ∀ tr, Write 0 [0xAA] ≠ .ok tr) ∧
    (0 + (([0xAA] : List Nat).length : Int) ≤ (romSize : Int) →
      Write 0 [0xAA] = .ok (writeLoop (0 : Int).toNat (padData [0xAA]))) :=
  C7_writer_range_check 0 [0xAA] (by decide) (by decide)

/-- C8 counterexample: the claim says each read-at-address operation is a
4-byte command (opcode 0x0B plus three address bytes), but the command the
reader hands to the framer for the read at address 0 is 5 bytes long — the
buffer is created with length 5 and its final byte stays 0. -/
theorem C8_read_command_cex :
    readTrace 0 1 = [([0x0B, 0, 0, 0, 0], 1)] ∧
      ¬ (∀ pr ∈ readTrace 0 1, (pr.1).length = 4) := by
  have h : readTrace 0 1 = [([0x0B, 0, 0, 0, 0], 1)] := by
    rw [readTrace, readSteps_pos 0 1 (by decide)]
    norm_num
    rw [readSteps_nil]
    simp [readCmd]
  exact ⟨h, by simp [h]⟩

/-- C8 amended: every read-at-address operation the Flash Reader issues is a
5-byte command — opcode 0x0B, the three address bytes high to low, then a
trailing zero byte — to which the device replies with the requested number
of data bytes. -/
theorem C8_read_command_amended (a n : Nat) :
    ∀ pr ∈ readTrace a n,
      ∃ x δ, (x, δ) ∈ readSteps a n ∧
        pr = ([0x0B, x / 65536 % 256, x / 256 % 256, x % 256, 0], δ) ∧
        (pr.1).length = 5 ∧
        ∀ mem : Nat → Nat, ((List.range' x δ).map mem).length = δ := by
  intro pr hpr
  rw [readTrace] at hpr
  obtain ⟨s, hs, hmap⟩ := List.mem_map.mp hpr
  exact ⟨s.1, s.2, hs, by rw [← hmap]; rfl, by rw [← hmap]; rfl, fun mem => by simp⟩

/-- Witness for C8's amended theorem at the read of 1 byte from address 0. -/
theorem C8_read_command_amended_witness :
    ∃ x δ, (x, δ) ∈ readSteps 0 1 ∧
      (([0x0B, 0, 0, 0, 0], 1) : List Nat × Nat) =
        ([0x0B, x / 65536 % 256, x / 256 % 256, x % 256, 0], δ) ∧
      (([0x0B, 0, 0, 0, 0] : List Nat)).length = 5 ∧
      ∀ mem : Nat → Nat, ((List.range' x δ).map mem).length = δ :=
  C8_read_command_amended 0 1 ([0x0B, 0, 0, 0, 0], 1)
    (by rw [readTrace, readSteps_pos 0 1 (by decide)]
        norm_num
        rw [readSteps_nil]
        simp [readCmd])

/-- C9: opening a session succeeds exactly when the device reports JEDEC
manufacturer 0xC8 and device ID pair 0x40, 0x15; any other triple fails the
open and no session is returned. -/
theorem C9_jedec_id_check (dev : Device) :
    (∃ u, NewQF dev = .ok u) ↔
      (dev.mid = 0xC8 ∧ dev.did1 = 0x40 ∧ dev.did2 = 0x15) := by
  unfold NewQF QFreset
  by_cases h1 : dev.mid = 0xC8 <;> by_cases h2 : dev.did1 = 0x40 <;>
    by_cases h3 : dev.did2 = 0x15 <;> simp [h1, h2, h3]

/-- C10: writing an empty slice at a nonnegative, sector-aligned, in-range
address succeeds with an empty command trace: no write-enable, no erase, no
program, and no byte programmed. -/
theorem C10_empty_write_no_commands (address : Int) (h0 : 0 ≤ address)
    (ha : address % 4096 = 0) (hr : address ≤ (romSize : Int)) :
    Write address [] = .ok [] ∧ progBytes [] = [] := by
  have h := write_ok address [] h0 ha (by simpa using hr)
  have hpad : padData [] = [] := by simp [padData]
  rw [hpad, writeLoop_nil] at h
  exact ⟨h, rfl⟩

/-- Witness for C10 at address 0. -/
theorem C10_empty_write_no_commands_witness :
    Write 0 [] = .ok [] ∧ progBytes [] = [] :=
  C10_empty_write_no_commands 0 (by decide) (by decide) (by decide)

/-- C1: on a sector-aligned, in-range write, the device commands form the
required order: every page program carries at most 8 bytes, sits between a
write-enable and a completion wait, and is preceded in the trace by the
write-enable / sector-erase / completion-wait block of the sector containing
its address; every sector erase is at a sector-aligned address between a
write-enable and a completion wait; and the programmed `(address, byte)`
pairs are exactly the (padded) data at consecutive increasing addresses from
the first byte to the last, with no gaps, overlaps or reordering. -/
theorem C1_writer_ordering (address : Int) (data : List Nat) (h0 : 0 ≤ address)
    (ha : address % 4096 = 0) (hr : address + data.length ≤ (romSize : Int)) :
    Write address data = .ok (writeLoop address.toNat (padData data)) ∧
    (∀ l1 x p l2,
      writeLoop address.toNat (padData data) = l1 ++ Event.pageProgram x p :: l2 →
        p.length ≤ 8 ∧
        (∃ l0, l1 = l0 ++ [Event.writeEnable]) ∧
        (∃ l3, l2 = Event.awaitWIP :: l3) ∧
        ∃ u v, l1 = u ++ [Event.writeEnable,
          Event.sectorErase (4096 * (x / 4096)), Event.awaitWIP] ++ v) ∧
    (∀ l1 x l2,
      writeLoop address.toNat (padData data) = l1 ++ Event.sectorErase x :: l2 →
        x % 4096 = 0 ∧ (∃ l0, l1 = l0 ++ [Event.writeEnable]) ∧
          (∃ l3, l2 = Event.awaitWIP :: l3)) ∧
    progBytes (writeLoop address.toNat (padData data)) =
      List.zip (List.range' address.toNat (padData data).length) (padData data) := by
  have hA4 : address.toNat % 4096 = 0 := by omega
  have hA8 : address.toNat % 8 = 0 := by omega
  have hd4 : (padData data).length % 4096 = 0 := padData_mod data
  have hd8 : (padData data).length % 8 = 0 := by omega
  have hwf : WellFormed (writeLoop address.toNat (padData data)) :=
    wf_writeLoop (padData data).length (padData data) address.toNat rfl
  refine ⟨write_ok address data h0 ha hr, ?_, ?_,
    progBytes_writeLoop (padData data).length (padData data) address.toNat rfl⟩
  · intro l1 x p l2 heq
    obtain ⟨h8, hl0, hl3⟩ := wf_prog_bracket hwf l1 x p l2 heq
    refine ⟨h8, hl0, hl3, ?_⟩
    have hmem : Event.sectorErase (4096 * (x / 4096)) ∈ l1 := by
      rcases writeLoop_erase_before (padData data).length (padData data)
          address.toNat rfl hA8 hd8 l1 x p l2 heq with hleft | hright
      · exact absurd hA4 hleft.1
      · exact hright
    obtain ⟨u', v', hsplit⟩ := List.append_of_mem hmem
    have heq' : writeLoop address.toNat (padData data) =
        u' ++ Event.sectorErase (4096 * (x / 4096)) ::
          (v' ++ Event.pageProgram x p :: l2) := by
      rw [heq, hsplit]
      simp
    obtain ⟨hs4, ⟨l0', hu'⟩, ⟨l3', hv'⟩⟩ :=
      wf_erase_bracket hwf u' (4096 * (x / 4096)) (v' ++ Event.pageProgram x p :: l2) heq'
    rcases v' with _ | ⟨e, v''⟩
    · simp at hv'
    · simp only [List.cons_append, List.cons.injEq] at hv'
      obtain ⟨he, _⟩ := hv'
      refine ⟨l0', v'', ?_⟩
      rw [hsplit, hu', he]
      simp
  · intro l1 x l2 heq
    exact wf_erase_bracket hwf l1 x l2 heq

/-- Witness for C1 at address 0 with a one-byte payload. -/
theorem C1_writer_ordering_witness :
    Write 0 [0xAA] = .ok (writeLoop (0 : Int).toNat (padData [0xAA])) ∧
    (∀ l1 x p l2,
      writeLoop (0 : Int).toNat (padData [0xAA]) = l1 ++ Event.pageProgram x p :: l2 →
        p.length ≤ 8 ∧
        (∃ l0, l1 = l0 ++ [Event.writeEnable]) ∧
        (∃ l3, l2 = Event.awaitWIP :: l3) ∧
        ∃ u v, l1 = u ++ [Event.writeEnable,
          Event.sectorErase (4096 * (x / 4096)), Event.awaitWIP] ++ v) ∧
    (∀ l1 x l2,
      writeLoop (0 : Int).toNat (padData [0xAA]) = l1 ++ Event.sectorErase x :: l2 →
        x % 4096 = 0 ∧ (∃ l0, l1 = l0 ++ [Event.writeEnable]) ∧
          (∃ l3, l2 = Event.awaitWIP :: l3)) ∧
    progBytes (writeLoop (0 : Int).toNat (padData [0xAA])) =
      List.zip (List.range' (0 : Int).toNat (padData [0xAA]).length) (padData [0xAA]) :=
  C1_writer_ordering 0 [0xAA] (by decide) (by decide) (by decide)

/-- C6: data whose length is not a multiple of 4096 is extended with 0xFF
fill bytes — and nothing else — up to the next sector boundary before
programming; in particular a 1-byte write at a sector-aligned address
programs a full 4096-byte sector whose byte 0 is the input byte and whose
remaining 4095 bytes are all 0xFF. -/
theorem C6_padding (address : Int) (data : List Nat) (h0 : 0 ≤ address)
    (ha : address % 4096 = 0) (hr : address + data.length ≤ (romSize : Int))
    (hnm : data.length % 4096 ≠ 0) :
    padData data = data ++ List.replicate (4096 - data.length % 4096) 0xff ∧
    (∀ b ∈ List.replicate (4096 - data.length % 4096) (0xff : Nat), b = 0xff) ∧
    Write address data = .ok (writeLoop address.toNat (padData data)) ∧
    progBytes (writeLoop address.toNat (padData data)) =
      List.zip (List.range' address.toNat (data.length + (4096 - data.length % 4096)))
        (data ++ List.replicate (4096 - data.length % 4096) 0xff) ∧
    (∀ b, data = [b] →
      progBytes (writeLoop address.toNat (padData data)) =
        List.zip (List.range' address.toNat 4096) (b :: List.replicate 4095 0xff)) := by
  have hpad : padData data = data ++ List.replicate (4096 - data.length % 4096) 0xff := by
    unfold padData
    rw [if_neg hnm]
  have hlen : (padData data).length = data.length + (4096 - data.length % 4096) := by
    rw [hpad]
    simp
  have hbytes : progBytes (writeLoop address.toNat (padData data)) =
      List.zip (List.range' address.toNat (data.length + (4096 - data.length % 4096)))
        (data ++ List.replicate (4096 - data.length % 4096) 0xff) := by
    rw [progBytes_writeLoop (padData data).length (padData data) address.toNat rfl,
      hlen, hpad]
  refine ⟨hpad, fun b hb => (List.eq_of_mem_replicate hb), write_ok address data h0 ha hr,
    hbytes, ?_⟩
  intro b hdata
  subst hdata
  rw [hbytes]
  norm_num

/-- Witness for C6: writing the single byte 0x5A at address 0. -/
theorem C6_padding_witness :
    padData [0x5A] = [0x5A] ++ List.replicate (4096 - ([0x5A] : List Nat).length % 4096) 0xff ∧
    (∀ b ∈ List.replicate (4096 - ([0x5A] : List Nat).length % 4096) (0xff : Nat), b = 0xff) ∧
    Write 0 [0x5A] = .ok (writeLoop (0 : Int).toNat (padData [0x5A])) ∧
    progBytes (writeLoop (0 : Int).toNat (padData [0x5A])) =
      List.zip (List.range' (0 : Int).toNat
          (([0x5A] : List Nat).length + (4096 - ([0x5A] : List Nat).length % 4096)))
        ([0x5A] ++ List.replicate (4096 - ([0x5A] : List Nat).length % 4096) 0xff) ∧
    (∀ b, ([0x5A] : List Nat) = [b] →
      progBytes (writeLoop (0 : Int).toNat (padData [0x5A])) =
        List.zip (List.range' (0 : Int).toNat 4096) (b :: List.replicate 4095 0xff)) :=
  C6_padding 0 [0x5A] (by decide) (by decide) (by decide) (by decide)

/-- C3 counterexample: with the default protect boundary 0x40000, a
successful `--write` of one byte to the "app" section issues two Flash
Writer calls, and the second — the metadata update at 0x13000 — begins
below the protect boundary, contradicting the claim that no Flash Writer
call (the final metadata write included) starts below it.  The source
comments that this write deliberately overrides the `--protect` limit. -/
theorem C3_protect_cex :
    mainWritePath (fun _ => 0) 0x40000 0x80000 (romSize : Int) (some "app") 0 [0xAA] =
      .ok [((0x80000 : Int), [0xAA]),
           ((0x13000 : Int), [0, 0, 0, 0, 1, 0, 0, 0, 3, 1, 2, 0xff])] ∧
    ∃ c ∈ [((0x80000 : Int), ([0xAA] : List Nat)),
           ((0x13000 : Int), [0, 0, 0, 0, 1, 0, 0, 0, 3, 1, 2, 0xff])],
      c.1 < 0x40000 :=
  ⟨by rfl, by decide⟩

/-- C3 amended: the protection check is applied before the data Flash
Writer invocation of the write path (its first writer call always begins at
or above the protect boundary) and before the disable operation (which only
proceeds when the section base is at or above the boundary), but the
metadata write that follows a successful data write is issued at the
section's metadata offset without any protection check and may begin below
the boundary. -/
theorem C3_protect_amended (crc : List Nat → Nat) (protect addrArg limitArg : Int)
    (sect : Option String) (skip : Nat) (file : List Nat) (name : String) :
    (∀ calls, mainWritePath crc protect addrArg limitArg sect skip file = .ok calls →
      ∃ a d rest, calls = (a, d) :: rest ∧ protect ≤ a) ∧
    (∀ calls, mainDisablePath protect name = .ok calls →
      ∃ sec, secByName name = some sec ∧ protect ≤ (sec.base : Int)) := by
  constructor
  · intro calls h
    unfold mainWritePath at h
    rcases sect with _ | name'
    · simp only at h
      split at h
      · exact absurd h (by simp)
      split at h
      · exact absurd h (by simp)
      split at h
      · exact absurd h (by simp)
      split at h
      · exact absurd h (by simp)
      split at h
      · exact absurd h (by simp)
      rename_i hprot
      simp only [Except.ok.injEq] at h
      exact ⟨addrArg, file.drop skip, [], h.symm, by omega⟩
    · simp only at h
      rcases hsec : secByName name' with _ | sec <;> rw [hsec] at h
      · exact absurd h (by simp)
      simp only at h
      split at h
      · exact absurd h (by simp)
      split at h
      · exact absurd h (by simp)
      split at h
      · exact absurd h (by simp)
      split at h
      · exact absurd h (by simp)
      split at h
      · exact absurd h (by simp)
      rename_i hprot
      split at h
      · simp only [Except.ok.injEq] at h
        exact ⟨(sec.base : Int), file.drop skip, [], h.symm, by omega⟩
      · simp only [Except.ok.injEq] at h
        refine ⟨(sec.base : Int), file.drop skip, _, h.symm, by omega⟩
  · intro calls h
    unfold mainDisablePath at h
    rcases hsec : secByName name with _ | sec <;> rw [hsec] at h
    · exact absurd h (by simp)
    simp only at h
    by_cases hprot : protect > (sec.base : Int)
    · rw [if_pos hprot] at h
      exact absurd h (by simp)
    · exact ⟨sec, rfl, by omega⟩

/-- Witness for C3's amended theorem: a sectionless write at 0x80000 with
protect boundary 0, and a disable of the "app" section with the same
boundary. -/
theorem C3_protect_amended_witness :
    (∃ a d rest, [((0x80000 : Int), ([] : List Nat))] = (a, d) :: rest ∧ (0 : Int) ≤ a) ∧
    (∃ sec, secByName "app" = some sec ∧ (0 : Int) ≤ (sec.base : Int)) :=
  ⟨(C3_protect_amended (fun _ => 0) 0 0x80000 (romSize : Int) none 0 [] "app").1
      [((0x80000 : Int), [])] (by rfl),
   (C3_protect_amended (fun _ => 0) 0 0x80000 (romSize : Int) none 0 [] "app").2
      [((0x13000 : Int), [255, 255, 255, 255, 255, 255, 255, 255, 255, 1, 2, 255])]
      (by rfl)⟩

/-- Any byte list with at least 12 elements decodes to some record. -/
lemma decodeMeta_total (l : List Nat) (hl : 12 ≤ l.length) :
    ∃ r, decodeMeta l = some r := by
  rcases l with _ | ⟨b0, _ | ⟨b1, _ | ⟨b2, _ | ⟨b3, _ | ⟨b4, _ | ⟨b5, _ | ⟨b6,
    _ | ⟨b7, _ | ⟨b8, _ | ⟨b9, _ | ⟨b10, _ | ⟨b11, rest⟩⟩⟩⟩⟩⟩⟩⟩⟩⟩⟩⟩
  all_goals try exact ⟨_, rfl⟩
  all_goals (exfalso; simp only [List.length_nil, List.length_cons] at hl; omega)

/-- Every section of the layout table lies inside the device. -/
lemma sections_bounds (sec : Section) (hmem : sec ∈ sections) :
    sec.meta + 12 ≤ romSize ∧ sec.limit ≤ romSize ∧ sec.base ≤ sec.limit := by
  have hall : ∀ s ∈ sections, s.meta + 12 ≤ romSize ∧ s.limit ≤ romSize ∧
      s.base ≤ s.limit := by decide
  exact hall sec hmem

/-- C5: for every region name resolving to a section, the validator first
reads the 12-byte metadata record; when the declared size exceeds
`limit - base` it fails with the invalid-size error without touching the
data area (its only read is the metadata read); otherwise it reads exactly
`record.Size` bytes from the region base, succeeds exactly when the
computed checksum equals the stored one, and on a mismatch fails with an
error carrying both the computed and the stored value. -/
theorem C5_validator (crc : List Nat → Nat) (mem : Nat → Nat) (name : String)
    (sec : Section) (h : secByName name = some sec) :
    ∃ record, decodeMeta ((List.range' sec.meta 12).map mem) = some record ∧
      (record.Size > sec.limit - sec.base →
        validate crc mem name =
          (.error (.invalidSize record.Size (sec.limit - sec.base)), [(sec.meta, 12)])) ∧
      (record.Size ≤ sec.limit - sec.base →
        (validate crc mem name).2 = [(sec.meta, 12), (sec.base, record.Size)] ∧
        ((List.range' sec.base record.Size).map mem).length = record.Size ∧
        ((validate crc mem name).1 = .ok () ↔
          crc ((List.range' sec.base record.Size).map mem) = record.CRC) ∧
        (crc ((List.range' sec.base record.Size).map mem) ≠ record.CRC →
          (validate crc mem name).1 = .error (.crcMismatch
            (crc ((List.range' sec.base record.Size).map mem)) record.CRC))) := by
  have hmem : sec ∈ sections := List.mem_of_find?_eq_some h
  obtain ⟨hb1, hb2, hb3⟩ := sections_bounds sec hmem
  have hread1 : Read mem (sec.meta : Int) 12 =
      .ok ((List.range' sec.meta 12).map mem) := by
    have h12 := read_ok mem (sec.meta : Int) 12 (by positivity) (by omega)
      (by omega)
    simpa using h12
  obtain ⟨record, hdec⟩ :=
    decodeMeta_total ((List.range' sec.meta 12).map mem) (by simp)
  refine ⟨record, hdec, ?_, ?_⟩
  · intro hgt
    unfold validate
    rw [h]
    simp only
    rw [hread1]
    simp only
    rw [hdec]
    simp only
    rw [if_pos hgt]
  · intro hle
    have hread2 : Read mem (sec.base : Int) (record.Size : Int) =
        .ok ((List.range' sec.base record.Size).map mem) := by
      have h2 := read_ok mem (sec.base : Int) (record.Size : Int) (by positivity)
        (by positivity) (by omega)
      simpa using h2
    unfold validate
    rw [h]
    simp only
    rw [hread1]
    simp only
    rw [hdec]
    simp only
    rw [if_neg (by omega), hread2]
    simp only
    refine ⟨?_, by simp, ?_, ?_⟩
    · by_cases hc : crc ((List.range' sec.base record.Size).map mem) = record.CRC
      · rw [if_pos hc]
      · rw [if_neg hc]
    · by_cases hc : crc ((List.range' sec.base record.Size).map mem) = record.CRC
      · rw [if_pos hc]
        simp [hc]
      · rw [if_neg hc]
        simp [hc]
    · intro hc
      rw [if_neg hc]

/-- Witness for C5 at the "app" section against an all-zero device with the
zero checksum function. -/
theorem C5_validator_witness :
    ∃ record, decodeMeta ((List.range' (Section.meta ⟨"app", 0x80000, 0xee000, 0x13000, 1, 2⟩) 12).map
        (fun _ => 0)) = some record ∧
      (record.Size > Section.limit ⟨"app", 0x80000, 0xee000, 0x13000, 1, 2⟩ -
          Section.base ⟨"app", 0x80000, 0xee000, 0x13000, 1, 2⟩ →
        validate (fun _ => 0) (fun _ => 0) "app" =
          (.error (.invalidSize record.Size
            (Section.limit ⟨"app", 0x80000, 0xee000, 0x13000, 1, 2⟩ -
              Section.base ⟨"app", 0x80000, 0xee000, 0x13000, 1, 2⟩)),
           [(Section.meta ⟨"app", 0x80000, 0xee000, 0x13000, 1, 2⟩, 12)])) ∧
      (record.Size ≤ Section.limit ⟨"app", 0x80000, 0xee000, 0x13000, 1, 2⟩ -
          Section.base ⟨"app", 0x80000, 0xee000, 0x13000, 1, 2⟩ →
        (validate (fun _ => 0) (fun _ => 0) "app").2 =
          [(Section.meta ⟨"app", 0x80000, 0xee000, 0x13000, 1, 2⟩, 12),
           (Section.base ⟨"app", 0x80000, 0xee000, 0x13000, 1, 2⟩, record.Size)] ∧
        ((List.range' (Section.base ⟨"app", 0x80000, 0xee000, 0x13000, 1, 2⟩) record.Size).map
            (fun _ => 0)).length = record.Size ∧
        ((validate (fun _ => 0) (fun _ => 0) "app").1 = .ok () ↔
          (fun _ => 0 : List Nat → Nat)
              ((List.range' (Section.base ⟨"app", 0x80000, 0xee000, 0x13000, 1, 2⟩)
                record.Size).map (fun _ => 0)) = record.CRC) ∧
        ((fun _ => 0 : List Nat → Nat)
              ((List.range' (Section.base ⟨"app", 0x80000, 0xee000, 0x13000, 1, 2⟩)
                record.Size).map (fun _ => 0)) ≠ record.CRC →
          (validate (fun _ => 0) (fun _ => 0) "app").1 = .error (.crcMismatch
            ((fun _ => 0 : List Nat → Nat)
              ((List.range' (Section.base ⟨"app", 0x80000, 0xee000, 0x13000, 1, 2⟩)
                record.Size).map (fun _ => 0))) record.CRC))) :=
  C5_validator (fun _ => 0) (fun _ => 0) "app" ⟨"app", 0x80000, 0xee000, 0x13000, 1, 2⟩ (by rfl)

end QFTool
